import Mathlib

/-!
Shallow embedding of the replay-buffer core and the trainer flow-control
of the Soft-Actor-Critic repository.

Embedded code:
  * `common/buffer.py` — `ReplayBuffer` (fixed-item circular buffer) and
    `TrajectoryReplayBuffer` (variable-length trajectory buffer), their
    `__init__`, `push`, `extend`, `sample` and `size` members;
  * `sac/main.py` — the update/sample-ratio computation and the
    pause/resume decision of `train_loop`.

Modelling conventions:
  * Python lists become `List`; Python integers are unbounded, so they
    become `Nat`/`Int` with no wrap-around;
  * a statement that can raise (`IndexError` on list assignment or on
    indexing past the end) is modelled in `Option`, with `none` for the
    raised exception; the `TypeError` of a keyword-binding failure and the
    `ZeroDivisionError` of the ratio computation are modelled in `Except`;
  * `np.inf` capacity (`capacity or np.inf`) is modelled by `Option Nat`
    with `none` for infinity;
  * random draws (`np.random.randint`, `np.random.choice`,
    `random.randint`) are modelled by explicit streams of picks; each
    modelled pick ranges over exactly the index interval the library call
    draws from, so every reachable behaviour of the code corresponds to
    some stream.
-/

/-- Python list assignment `l[i] = x`: the element is replaced when
`i < len(l)`, otherwise an `IndexError` is raised (modelled as `none`).
Indices here are the non-negative values actually used by the code. -/
def setIdx {α : Type} (l : List α) (i : ℕ) (x : α) : Option (List α) :=
  if i < l.length then some (l.set i x) else none

/-- Capacity of a buffer after `self.capacity = (capacity or np.inf)`:
`none` models `np.inf`. -/
abbrev Capacity := Option ℕ

/-- Comparison `size < self.capacity` where the capacity may be `np.inf`. -/
def Capacity.ltCap (n : ℕ) : Capacity → Bool
  | none => true
  | some c => decide (n < c)

/-- Comparison `size + length <= self.capacity` where the capacity may be
`np.inf`. -/
def Capacity.leCap (n : ℕ) : Capacity → Bool
  | none => true
  | some c => decide (n ≤ c)

/-- State of a `ReplayBuffer` (`common/buffer.py`): the slot list
`self.buffer`, the shared write cursor `self.buffer_offset` and the
capacity bound.  The multiprocessing `Value`/`Lock` machinery carries no
sequential state beyond the integer cursor itself. -/
structure ReplayBuffer (α : Type) where
  capacity : Capacity
  buffer : List α
  offset : ℕ
deriving Repr, DecidableEq

namespace ReplayBuffer

/-- Constructor `ReplayBuffer.__init__`: `self.capacity = (capacity or np.inf)`
— both `None` and `0` are falsy in Python, so both give an unbounded buffer —
with an empty slot list and cursor `0`. -/
def init {α : Type} (capacity : Option ℕ) : ReplayBuffer α :=
  { capacity := match capacity with
      | none => none
      | some 0 => none
      | some c => some c
    buffer := []
    offset := 0 }

/-- Observer `ReplayBuffer.size`: `len(self.buffer)`. -/
def size {α : Type} (b : ReplayBuffer α) : ℕ :=
  b.buffer.length

/-- Method `ReplayBuffer.push`: append the item while `size < capacity`,
otherwise assign the slot at `offset`; then advance `offset` by one,
reduced modulo the capacity when the capacity is finite. -/
def push {α : Type} (b : ReplayBuffer α) (item : α) : Option (ReplayBuffer α) := do
  let buf ← if Capacity.ltCap b.size b.capacity
    then pure (b.buffer ++ [item])
    else setIdx b.buffer b.offset item
  let off := b.offset + 1
  let off := match b.capacity with
    | none => off
    | some c => off % c
  pure { b with buffer := buf, offset := off }

/-- Method `ReplayBuffer.extend`: the same append-or-assign step as `push`,
executed once per item of the argument, under one lock acquisition. -/
def extend {α : Type} (b : ReplayBuffer α) : List α → Option (ReplayBuffer α)
  | [] => some b
  | item :: rest => do
    let buf ← if Capacity.ltCap b.size b.capacity
      then pure (b.buffer ++ [item])
      else setIdx b.buffer b.offset item
    let off := b.offset + 1
    let off := match b.capacity with
      | none => off
      | some c => off % c
    extend { b with buffer := buf, offset := off } rest

/-- Sequential composition of `push`, one call per list element, in order. -/
def pushSeq {α : Type} (b : ReplayBuffer α) : List α → Option (ReplayBuffer α)
  | [] => some b
  | item :: rest => b.push item >>= fun b' => pushSeq b' rest

end ReplayBuffer

/-- One mutation of a `ReplayBuffer`: a `push` of one item or an `extend`
with a batch of items. -/
inductive ReplayBufferOp (α : Type) where
  | pushOp (item : α)
  | extendOp (items : List α)

/-- Execution of a sequence of mutations against a `ReplayBuffer`. -/
def ReplayBuffer.runOps {α : Type} (b : ReplayBuffer α) :
    List (ReplayBufferOp α) → Option (ReplayBuffer α)
  | [] => some b
  | op :: rest =>
    (match op with
      | .pushOp item => b.push item
      | .extendOp items => b.extend items) >>= fun b' => ReplayBuffer.runOps b' rest

/-- One stored item of the basic buffer, as `sample` unpacks it:
`observation, action, reward, next_observation, done`. -/
structure Item (β : Type) where
  observation : β
  action : β
  reward : β
  nextObservation : β
  done : β
deriving Repr, DecidableEq

/-- Indexing `self.buffer[i]` once per drawn index, collecting the batch. -/
def idxGetAll {α : Type} (l : List α) : List ℕ → Option (List α)
  | [] => some []
  | i :: rest => do
    let x ← l.get? i
    let xs ← idxGetAll l rest
    pure (x :: xs)

/-- Method `ReplayBuffer.sample`: index the slot list at each randomly drawn
index — the stream `idxs` stands for `np.random.randint(self.size,
size=batch_size)`, so `batch_size = idxs.length` and every entry lies in
`[0, size)` — then regroup the batch field-wise (`zip(*batch)` followed by
`np.stack` and `torch.FloatTensor`, which reorganize the values without
changing them). -/
def ReplayBuffer.sample {β : Type} (b : ReplayBuffer (Item β)) (idxs : List ℕ) :
    Option (List β × List β × List β × List β × List β) := do
  let batch ← idxGetAll b.buffer idxs
  pure (batch.map Item.observation, batch.map Item.action, batch.map Item.reward,
        batch.map Item.nextObservation, batch.map Item.done)

/-- One stored trajectory, as `TrajectoryReplayBuffer.push` receives it and
`sample` unpacks it: five per-step field arrays plus the per-step recurrent
hidden states.  All step entries share one element type `β`; the hidden
entries have their own type `γ`. -/
structure Trajectory (β γ : Type) where
  observation : List β
  action : List β
  reward : List β
  nextObservation : List β
  done : List β
  hidden : List γ
deriving Repr, DecidableEq

/-- Length of a trajectory as `push` computes it: `len(args[0])`, the length
of the observation field. -/
def Trajectory.length {β γ : Type} (t : Trajectory β γ) : ℕ :=
  t.observation.length

/-- Data-model invariant of a pushed trajectory: all six per-step arrays have
the same leading length. -/
def Trajectory.aligned {β γ : Type} (t : Trajectory β γ) : Prop :=
  t.action.length = t.observation.length ∧
  t.reward.length = t.observation.length ∧
  t.nextObservation.length = t.observation.length ∧
  t.done.length = t.observation.length ∧
  t.hidden.length = t.observation.length

/-- Content of one slot of a `TrajectoryReplayBuffer`: `push` stores whole
trajectory tuples, while the `extend` method inherited unchanged from
`ReplayBuffer` appends raw per-step items (of opaque type `ι`), so a slot
can hold either. -/
inductive Slot (β γ ι : Type) where
  | traj (t : Trajectory β γ)
  | item (x : ι)
deriving Repr, DecidableEq

/-- Alignment of a slot: trajectory slots must be aligned, raw item slots
carry no per-step arrays. -/
def Slot.aligned {β γ ι : Type} : Slot β γ ι → Prop
  | .traj t => t.aligned
  | .item _ => True

/-- State of a `TrajectoryReplayBuffer` (`common/buffer.py`): the slot list,
the parallel length list `self.lengths`, the shared write cursor and the
capacity bound (counted in cumulative steps). -/
structure TrajectoryReplayBuffer (β γ ι : Type) where
  capacity : Capacity
  buffer : List (Slot β γ ι)
  lengths : List ℕ
  offset : ℕ
deriving Repr, DecidableEq

namespace TrajectoryReplayBuffer

/-- State a fresh `TrajectoryReplayBuffer` would carry: empty slot and length
lists, cursor `0`, `capacity or np.inf`.  The constructor itself never
reaches this state at runtime — see `init` below — so the push/sample level
claims are settled against the state the methods operate on. -/
def empty {β γ ι : Type} (capacity : Option ℕ) : TrajectoryReplayBuffer β γ ι :=
  { capacity := match capacity with
      | none => none
      | some 0 => none
      | some c => some c
    buffer := []
    lengths := []
    offset := 0 }

/-- Observer `TrajectoryReplayBuffer.size`: `sum(self.lengths)`. -/
def size {β γ ι : Type} (b : TrajectoryReplayBuffer β γ ι) : ℕ :=
  b.lengths.sum

/-- Method `TrajectoryReplayBuffer.push`: when `size + length <= capacity`,
append the trajectory and its length and advance the cursor by one;
otherwise assign slot `offset` and its length — an `IndexError` when the
cursor is out of range — and advance the cursor modulo the slot count. -/
def push {β γ ι : Type} (b : TrajectoryReplayBuffer β γ ι) (t : Trajectory β γ) :
    Option (TrajectoryReplayBuffer β γ ι) :=
  let length := t.length
  if Capacity.leCap (b.size + length) b.capacity then
    some { b with buffer := b.buffer ++ [Slot.traj t]
                  lengths := b.lengths ++ [length]
                  offset := b.offset + 1 }
  else do
    let buf ← setIdx b.buffer b.offset (Slot.traj t)
    let lens ← setIdx b.lengths b.offset length
    pure { b with buffer := buf, lengths := lens,
                  offset := (b.offset + 1) % buf.length }

/-- Method `extend` as executed on a `TrajectoryReplayBuffer`: the loop body
inherited from `ReplayBuffer.extend`, with `self.size` dynamically bound to
`sum(self.lengths)`.  It appends (or assigns) raw items without touching
`self.lengths`, and advances the cursor modulo the step capacity. -/
def extend {β γ ι : Type} (b : TrajectoryReplayBuffer β γ ι) :
    List ι → Option (TrajectoryReplayBuffer β γ ι)
  | [] => some b
  | item :: rest => do
    let buf ← if Capacity.ltCap b.size b.capacity
      then pure (b.buffer ++ [Slot.item item])
      else setIdx b.buffer b.offset (Slot.item item)
    let off := b.offset + 1
    let off := match b.capacity with
      | none => off
      | some c => off % c
    extend { b with buffer := buf, offset := off } rest

/-- Sequential composition of `push`, one call per trajectory, in order. -/
def pushSeq {β γ ι : Type} (b : TrajectoryReplayBuffer β γ ι) :
    List (Trajectory β γ) → Option (TrajectoryReplayBuffer β γ ι)
  | [] => some b
  | t :: rest => b.push t >>= fun b' => pushSeq b' rest

end TrajectoryReplayBuffer

/-- One extracted sub-sequence: the five field slices of width `step_size`
plus the single hidden-state entry at the start offset. -/
structure SubSeq (β γ : Type) where
  observation : List β
  action : List β
  reward : List β
  nextObservation : List β
  done : List β
  hidden : γ
deriving Repr, DecidableEq

/-- The inner `while True` retry loop of `TrajectoryReplayBuffer.sample` for
one batch element.  Each pick `(i, r)` stands for one loop iteration:
`i` is the weighted slot draw `np.random.choice(len(weights), p=weights)`
(always within `[0, len(weights))`; an out-of-range or raw-item slot, both
impossible for the real draw on a well-formed state, is modelled as a
failure) and `r` seeds the start draw `random.randint(0, len(observation) -
step_size)`, modelled as `r % (len - step_size + 1)` so that the modelled
start ranges over exactly `[0, len - step_size]`.  A trajectory shorter
than `step_size` makes the loop draw again; an exhausted pick stream
(`none`) models a loop that is still running. -/
def drawOne {β γ ι : Type} (buffer : List (Slot β γ ι)) (stepSize : ℕ) :
    List (ℕ × ℕ) → Option (SubSeq β γ)
  | [] => none
  | (i, r) :: rest =>
    match buffer.get? i with
    | none => none
    | some (Slot.item _) => none
    | some (Slot.traj t) =>
      if stepSize ≤ t.observation.length then
        let off := r % (t.observation.length - stepSize + 1)
        match t.hidden.get? off with
        | none => none
        | some h =>
          some { observation := (t.observation.drop off).take stepSize
                 action := (t.action.drop off).take stepSize
                 reward := (t.reward.drop off).take stepSize
                 nextObservation := (t.nextObservation.drop off).take stepSize
                 done := (t.done.drop off).take stepSize
                 hidden := h }
      else drawOne buffer stepSize rest

/-- The `for i in range(batch_size)` loop of `TrajectoryReplayBuffer.sample`:
one retry-loop execution per batch element, collecting the extracted
sub-sequences in order. -/
def drawAll {β γ ι : Type} (buffer : List (Slot β γ ι)) (stepSize : ℕ) :
    List (List (ℕ × ℕ)) → Option (List (SubSeq β γ))
  | [] => some []
  | picks :: rest => do
    let d ← drawOne buffer stepSize picks
    let ds ← drawAll buffer stepSize rest
    pure (d :: ds)

/-- Regrouping performed by `np.stack` over the batch followed by
`tensor.transpose(0, 1)`: the batch-major list of equal-length sequences
becomes time-major.  Entry `t` of the result collects entry `t` of every
row; for rows that all have length `stepSize` this is exactly the
transpose. -/
def timeMajor {β : Type} (stepSize : ℕ) (rows : List (List β)) : List (List β) :=
  (List.range stepSize).map (fun t => rows.filterMap (fun r => r.get? t))

/-- Return value of `TrajectoryReplayBuffer.sample`: the five time-major
field arrays plus the hidden-state snapshots concatenated along the batch
axis (`LSTMHidden.cat(hiddens, dim=1)`). -/
structure SampleBatch (β γ : Type) where
  observation : List (List β)
  action : List (List β)
  reward : List (List β)
  nextObservation : List (List β)
  done : List (List β)
  hidden : List γ
deriving Repr, DecidableEq

/-- Method `TrajectoryReplayBuffer.sample`: run the retry loop once per batch
element (`batch_size = rand.length`, one pick stream per element), stack the
collected slices field-wise and transpose them to time-major order, and
concatenate the per-element hidden snapshots along the batch axis. -/
def TrajectoryReplayBuffer.sample {β γ ι : Type} (b : TrajectoryReplayBuffer β γ ι)
    (stepSize : ℕ) (rand : List (List (ℕ × ℕ))) : Option (SampleBatch β γ) := do
  let draws ← drawAll b.buffer stepSize rand
  pure { observation := timeMajor stepSize (draws.map SubSeq.observation)
         action := timeMajor stepSize (draws.map SubSeq.action)
         reward := timeMajor stepSize (draws.map SubSeq.reward)
         nextObservation := timeMajor stepSize (draws.map SubSeq.nextObservation)
         done := timeMajor stepSize (draws.map SubSeq.done)
         hidden := draws.map SubSeq.hidden }

/-- Soundness of one returned sample batch (the property claimed of
`TrajectoryReplayBuffer.sample`): there is a list of extracted
sub-sequences, one per batch element, each cut from a stored trajectory
slot of length at least `stepSize`, starting inside
`[0, length - stepSize]`, of width exactly `stepSize` in every field, and
contributing the single hidden entry at its start offset; the returned
per-field arrays are the time-major regrouping of those sub-sequences, of
outer length `stepSize` with every row of length `batchSize`, and the
returned hidden array has one entry per batch element. -/
def sampleSound {β γ ι : Type} (b : TrajectoryReplayBuffer β γ ι) (stepSize : ℕ)
    (batchSize : ℕ) (out : SampleBatch β γ) : Prop :=
  ∃ draws : List (SubSeq β γ),
    draws.length = batchSize ∧
    (∀ d ∈ draws, ∃ i t off,
        b.buffer.get? i = some (Slot.traj t) ∧
        stepSize ≤ t.observation.length ∧
        off ≤ t.observation.length - stepSize ∧
        d.observation = (t.observation.drop off).take stepSize ∧
        d.action = (t.action.drop off).take stepSize ∧
        d.reward = (t.reward.drop off).take stepSize ∧
        d.nextObservation = (t.nextObservation.drop off).take stepSize ∧
        d.done = (t.done.drop off).take stepSize ∧
        t.hidden.get? off = some d.hidden ∧
        d.observation.length = stepSize ∧ d.action.length = stepSize ∧
        d.reward.length = stepSize ∧ d.nextObservation.length = stepSize ∧
        d.done.length = stepSize) ∧
    out.observation = timeMajor stepSize (draws.map SubSeq.observation) ∧
    out.action = timeMajor stepSize (draws.map SubSeq.action) ∧
    out.reward = timeMajor stepSize (draws.map SubSeq.reward) ∧
    out.nextObservation = timeMajor stepSize (draws.map SubSeq.nextObservation) ∧
    out.done = timeMajor stepSize (draws.map SubSeq.done) ∧
    out.hidden = draws.map SubSeq.hidden ∧
    out.observation.length = stepSize ∧ (∀ col ∈ out.observation, col.length = batchSize) ∧
    out.action.length = stepSize ∧ (∀ col ∈ out.action, col.length = batchSize) ∧
    out.reward.length = stepSize ∧ (∀ col ∈ out.reward, col.length = batchSize) ∧
    out.nextObservation.length = stepSize ∧
    (∀ col ∈ out.nextObservation, col.length = batchSize) ∧
    out.done.length = stepSize ∧ (∀ col ∈ out.done, col.length = batchSize) ∧
    out.hidden.length = batchSize

/-- Parameter names accepted by `ReplayBuffer.__init__` after `self`. -/
def replayBufferInitParams : List String :=
  ["capacity", "initializer", "Value", "Lock"]

/-- Keyword names `TrajectoryReplayBuffer.__init__` passes in its
`super().__init__(capacity=..., initializer=..., lock=...)` call. -/
def trajectorySuperKwargs : List String :=
  ["capacity", "initializer", "lock"]

/-- Python keyword binding: a call whose keyword names no parameter of the
callee raises `TypeError: got an unexpected keyword argument`. -/
def bindKwargs (params kwargs : List String) : Except String Unit :=
  match kwargs.filter (fun k => !params.contains k) with
  | [] => Except.ok ()
  | k :: _ => Except.error ("unexpected keyword argument " ++ k)

/-- Constructor `TrajectoryReplayBuffer.__init__`: first the
`super().__init__` call, whose keyword binding must succeed, then
`self.lengths = initializer()` completes the state.  Only the keyword
names — not the argument values — decide the binding. -/
def TrajectoryReplayBuffer.init (β γ ι : Type) (capacity : Option ℕ) :
    Except String (TrajectoryReplayBuffer β γ ι) := do
  let _ ← match bindKwargs replayBufferInitParams trajectorySuperKwargs with
    | Except.ok u => pure u
    | Except.error e => throw e
  pure (TrajectoryReplayBuffer.empty capacity)

/-- Signal sent to the sampler pool at the end of one trainer update step
(`model.collector.pause()` / `.resume()` in `train_loop`). -/
inductive FlowSignal where
  | pause
  | resume
deriving Repr, DecidableEq

/-- Ratio expression of `train_loop`:
`(config.n_samples_per_update * model.global_step) /
(model.collector.n_total_steps - n_initial_samples)`, true (float)
division over unbounded Python integers, modelled exactly over `ℚ`;
a zero denominator raises `ZeroDivisionError`, modelled as an error. -/
def updateSampleRatioRaw (nSamplesPerUpdate globalStep : ℕ)
    (nTotalSteps nInitialSamples : ℤ) : Except Unit ℚ :=
  if nTotalSteps - nInitialSamples = 0 then Except.error ()
  else Except.ok ((nSamplesPerUpdate * globalStep : ℚ) /
    ((nTotalSteps - nInitialSamples : ℤ) : ℚ))

/-- The `try`/`except ZeroDivisionError` around the ratio: on a zero
denominator the configured target `config.update_sample_ratio` is
substituted, and no error escapes (the function is total). -/
def updateSampleRatio (nSamplesPerUpdate globalStep : ℕ)
    (nTotalSteps nInitialSamples : ℤ) (target : ℚ) : ℚ :=
  match updateSampleRatioRaw nSamplesPerUpdate globalStep nTotalSteps nInitialSamples with
  | Except.ok r => r
  | Except.error _ => target

/-- Pause/resume decision at the end of one update step:
`if update_sample_ratio < config.update_sample_ratio:
collector.pause() else: collector.resume()`. -/
def flowSignal (nSamplesPerUpdate globalStep : ℕ)
    (nTotalSteps nInitialSamples : ℤ) (target : ℚ) : FlowSignal :=
  if updateSampleRatio nSamplesPerUpdate globalStep nTotalSteps nInitialSamples target
      < target then FlowSignal.pause
  else FlowSignal.resume

/-- Trajectory of a given length with constant entries, for the concrete
scenario traces. -/
def constTraj (n : ℕ) : Trajectory ℕ ℕ :=
  { observation := List.replicate n 0
    action := List.replicate n 0
    reward := List.replicate n 0
    nextObservation := List.replicate n 0
    done := List.replicate n 0
    hidden := List.replicate n 0 }

/-- Concrete scenario of the spec: a trajectory buffer of capacity 10,
pushing trajectories of lengths 4, 4 and 5 in order. -/
def scenarioTenFourFourFive : Option (TrajectoryReplayBuffer ℕ ℕ ℕ) :=
  TrajectoryReplayBuffer.pushSeq (TrajectoryReplayBuffer.empty (some 10))
    [constTraj 4, constTraj 4, constTraj 5]

/-- Mutation trace for the size bound of the trajectory buffer: capacity 3;
two pushed length-1 trajectories, one inherited `extend` with a single raw
item, then a push of a length-9 trajectory that lands in the overwrite
branch. -/
def scenarioSizeOverflow : Option (TrajectoryReplayBuffer ℕ ℕ ℕ) := do
  let b1 ← TrajectoryReplayBuffer.push (TrajectoryReplayBuffer.empty (some 3)) (constTraj 1)
  let b2 ← TrajectoryReplayBuffer.push b1 (constTraj 1)
  let b3 ← TrajectoryReplayBuffer.extend b2 [0]
  TrajectoryReplayBuffer.push b3 (constTraj 9)

/-- Concrete one-slot trajectory buffer (one aligned stored trajectory of
length 2) used by the sampling witnesses. -/
def witnessBuf : TrajectoryReplayBuffer ℕ ℕ ℕ :=
  { capacity := some 5
    buffer := [Slot.traj (constTraj 2)]
    lengths := [2]
    offset := 1 }

/-!  Theorems. -/

/-- C5: pushing four items `A, B, C, D` into a `ReplayBuffer` of capacity 3
leaves exactly the slots `[D, B, C]` (the fourth push overwrote slot 0) and
the write cursor at 1. -/
theorem replay_push_abcd_wraps {α : Type} (A B C D : α) :
    ReplayBuffer.pushSeq (ReplayBuffer.init (some 3)) [A, B, C, D] =
      some { capacity := some 3, buffer := [D, B, C], offset := 1 } := by
  simp [ReplayBuffer.pushSeq, ReplayBuffer.push, ReplayBuffer.init, ReplayBuffer.size,
    Capacity.ltCap, setIdx, bind, Option.bind]

/-- Helper for C8 and reused below: `extend` computes the same state as
folding `push` over the items. -/
theorem ReplayBuffer.extend_eq_pushSeq {α : Type} (b : ReplayBuffer α) (l : List α) :
    b.extend l = b.pushSeq l := by
  induction l generalizing b with
  | nil => rfl
  | cons x xs ih =>
    show ReplayBuffer.extend b (x :: xs) = ReplayBuffer.pushSeq b (x :: xs)
    rw [ReplayBuffer.extend, ReplayBuffer.pushSeq, ReplayBuffer.push]
    by_cases hc : Capacity.ltCap b.size b.capacity = true
    · simp only [hc, if_true, bind, Option.bind, pure]
      exact ih _
    · simp only [hc, if_false, Bool.false_eq_true]
      cases hs : setIdx b.buffer b.offset x with
      | none => simp [bind, Option.bind, hs]
      | some buf =>
        simp [bind, Option.bind, hs]
        exact ih _

/-- C8: for every starting state and item list, `ReplayBuffer.extend` leaves
the buffer in exactly the state — same slot contents, same offset — reached
by pushing the items one at a time, in order. -/
theorem replay_extend_eq_push_each {α : Type} (b : ReplayBuffer α) (l : List α) :
    b.extend l = b.pushSeq l :=
  ReplayBuffer.extend_eq_pushSeq b l

/-- C2: in the concrete scenario — trajectory buffer of capacity 10, pushes
of lengths 4, 4, 5 — the first two pushes append (lengths `[4, 4]`, cursor
2), and the third push, which the spec expects to overwrite the first slot,
instead raises `IndexError`: the overwrite branch assigns
`self.buffer[self.offset]` with `offset = 2` on a two-slot list, because the
cursor is only wrapped after the assignment, never before. -/
theorem trajectory_third_push_raises :
    (TrajectoryReplayBuffer.pushSeq (TrajectoryReplayBuffer.empty (some 10))
      [constTraj 4, constTraj 4] : Option (TrajectoryReplayBuffer ℕ ℕ ℕ)) =
      some { capacity := some 10
             buffer := [Slot.traj (constTraj 4), Slot.traj (constTraj 4)]
             lengths := [4, 4]
             offset := 2 } ∧
    scenarioTenFourFourFive = none := by
  decide

/-- C3 counterexample: a four-mutation trace on a trajectory buffer of
capacity 3 — push length 1, push length 1, inherited `extend` with one raw
item (which appends a slot without a length entry and wraps the shared
cursor to 0), push length 9 (which now overwrites slot 0 successfully) —
ends with `size = sum(lengths) = 10`, strictly above the capacity 3. -/
theorem trajectory_size_exceeds_capacity :
    scenarioSizeOverflow.map TrajectoryReplayBuffer.size = some 10 ∧
    scenarioSizeOverflow.map
      (fun b => Capacity.leCap (TrajectoryReplayBuffer.size b) b.capacity) =
      some false := by
  decide

/-- C1: constructing a `TrajectoryReplayBuffer` always raises `TypeError`,
whatever the capacity (and initializer) arguments: `__init__` forwards the
keyword `lock` to `ReplayBuffer.__init__`, whose parameters are `capacity`,
`initializer`, `Value` and `Lock`, so the keyword binding of the `super()`
call fails before the `lengths` slot state is created. -/
theorem trajectory_init_type_error (β γ ι : Type) (capacity : Option ℕ) :
    TrajectoryReplayBuffer.init β γ ι capacity =
      Except.error "unexpected keyword argument lock" := by
  rfl

/-- C4: the flow controller of `train_loop` computes the update/sample ratio
with the stated formula; a zero denominator is caught locally and the
configured target ratio is substituted (the computation is total — the
substitution makes that case signal `resume`); the sampler pool is signalled
`pause` exactly when the ratio is below the target and `resume` exactly when
it is at or above it. -/
theorem flow_ratio_fallback_and_signal (n g : ℕ) (T I : ℤ) (target : ℚ) :
    (T - I = 0 →
      updateSampleRatioRaw n g T I = Except.error () ∧
      updateSampleRatio n g T I target = target ∧
      flowSignal n g T I target = FlowSignal.resume) ∧
    (flowSignal n g T I target = FlowSignal.pause ↔
      updateSampleRatio n g T I target < target) ∧
    (flowSignal n g T I target = FlowSignal.resume ↔
      target ≤ updateSampleRatio n g T I target) := by
  refine ⟨?_, ?_, ?_⟩
  · intro h
    have hraw : updateSampleRatioRaw n g T I = Except.error () := by
      simp [updateSampleRatioRaw, h]
    have hratio : updateSampleRatio n g T I target = target := by
      simp [updateSampleRatio, hraw]
    refine ⟨hraw, hratio, ?_⟩
    simp [flowSignal, hratio]
  · constructor
    · intro h
      by_contra hlt
      simp [flowSignal, hlt] at h
    · intro h
      simp [flowSignal, h]
  · constructor
    · intro h
      by_contra hle
      rw [not_le] at hle
      simp [flowSignal, hle] at h
    · intro h
      have : ¬ updateSampleRatio n g T I target < target := not_lt.mpr h
      simp [flowSignal, this]

/-- Closed witness for C4, at one update step with no new data: one sample
per update, one update done, total steps still equal to the initial steps,
target ratio 5. -/
theorem flow_ratio_fallback_and_signal_witness :
    ((0 : ℤ) - 0 = 0 →
      updateSampleRatioRaw 1 1 0 0 = Except.error () ∧
      updateSampleRatio 1 1 0 0 5 = 5 ∧
      flowSignal 1 1 0 0 5 = FlowSignal.resume) ∧
    (flowSignal 1 1 0 0 5 = FlowSignal.pause ↔ updateSampleRatio 1 1 0 0 5 < 5) ∧
    (flowSignal 1 1 0 0 5 = FlowSignal.resume ↔ 5 ≤ updateSampleRatio 1 1 0 0 5) :=
  flow_ratio_fallback_and_signal 1 1 0 0 5

/-- Helper: inversion of a successful Python list assignment. -/
theorem setIdx_some {α : Type} {l l' : List α} {i : ℕ} {x : α}
    (h : setIdx l i x = some l') : l' = l.set i x ∧ i < l.length := by
  unfold setIdx at h
  by_cases hi : i < l.length
  · simp [hi] at h
    exact ⟨h.symm, hi⟩
  · simp [hi] at h

/-- Helper: while the slots already present plus the items still to be
pushed fit a finite capacity, every `ReplayBuffer.push` appends, and the
slot list grows by exactly the pushed items. -/
theorem ReplayBuffer.pushSeq_appends {α : Type} (items : List α) (b : ReplayBuffer α)
    (c : ℕ) (hc : b.capacity = some c) (h : b.size + items.length ≤ c) :
    ∃ b', b.pushSeq items = some b' ∧ b'.buffer = b.buffer ++ items ∧
      b'.capacity = some c := by
  induction items generalizing b with
  | nil => exact ⟨b, rfl, by simp, hc⟩
  | cons x xs ih =>
    have hlt : Capacity.ltCap b.size (some c) = true := by
      simp only [Capacity.ltCap, decide_eq_true_eq]
      simp only [List.length_cons] at h
      omega
    have hpush : b.push x = some { b with
        buffer := b.buffer ++ [x]
        offset := (b.offset + 1) % c } := by
      simp [ReplayBuffer.push, hc, hlt, bind, Option.bind, pure]
    have hstep : ReplayBuffer.pushSeq b (x :: xs) =
        ReplayBuffer.pushSeq { b with
          buffer := b.buffer ++ [x]
          offset := (b.offset + 1) % c } xs := by
      rw [ReplayBuffer.pushSeq, hpush]
      rfl
    obtain ⟨b', hseq, hbuf, hcap⟩ := ih { b with
        buffer := b.buffer ++ [x]
        offset := (b.offset + 1) % c } hc
      (by simp only [ReplayBuffer.size, List.length_append, List.length_cons,
            List.length_nil] at h ⊢; omega)
    exact ⟨b', by rw [hstep]; exact hseq, by simp [hbuf], hcap⟩

/-- Helper: while the stored steps plus the steps still to be pushed fit a
finite capacity, every `TrajectoryReplayBuffer.push` appends, and the length
list grows by exactly the pushed lengths. -/
theorem TrajectoryReplayBuffer.pushSeq_appendLengths {β γ ι : Type}
    (ts : List (Trajectory β γ)) (b : TrajectoryReplayBuffer β γ ι) (c : ℕ)
    (hc : b.capacity = some c)
    (h : b.size + (ts.map Trajectory.length).sum ≤ c) :
    ∃ b', b.pushSeq ts = some b' ∧
      b'.lengths = b.lengths ++ ts.map Trajectory.length ∧
      b'.capacity = some c := by
  induction ts generalizing b with
  | nil => exact ⟨b, rfl, by simp, hc⟩
  | cons t ts ih =>
    have hle : Capacity.leCap (b.size + t.length) b.capacity = true := by
      rw [hc]
      simp only [Capacity.leCap, decide_eq_true_eq]
      simp only [List.map_cons, List.sum_cons] at h
      omega
    have hpush : b.push t = some { b with
        buffer := b.buffer ++ [Slot.traj t]
        lengths := b.lengths ++ [t.length]
        offset := b.offset + 1 } := by
      simp [TrajectoryReplayBuffer.push, hle]
    have hstep : TrajectoryReplayBuffer.pushSeq b (t :: ts) =
        TrajectoryReplayBuffer.pushSeq { b with
          buffer := b.buffer ++ [Slot.traj t]
          lengths := b.lengths ++ [t.length]
          offset := b.offset + 1 } ts := by
      rw [TrajectoryReplayBuffer.pushSeq, hpush]
      rfl
    obtain ⟨b', hseq, hlens, hcap⟩ := ih { b with
        buffer := b.buffer ++ [Slot.traj t]
        lengths := b.lengths ++ [t.length]
        offset := b.offset + 1 } hc
      (by simp only [TrajectoryReplayBuffer.size, List.map_cons, List.sum_cons,
            List.sum_append, List.sum_cons, List.sum_nil] at h ⊢; omega)
    exact ⟨b', by rw [hstep]; exact hseq, by simp [hlens], hcap⟩

/-- Helper: a positive requested capacity survives `capacity or np.inf`. -/
theorem ReplayBuffer.init_capacity_pos {α : Type} {c : ℕ} (hc : 0 < c) :
    (ReplayBuffer.init (α := α) (some c)).capacity = some c := by
  cases c with
  | zero => exact absurd hc (by simp)
  | succ n => rfl

/-- Helper: a positive requested capacity survives `capacity or np.inf`. -/
theorem TrajectoryReplayBuffer.empty_capacity_pos {β γ ι : Type} {c : ℕ} (hc : 0 < c) :
    (TrajectoryReplayBuffer.empty (β := β) (γ := γ) (ι := ι) (some c)).capacity = some c := by
  cases c with
  | zero => exact absurd hc (by simp)
  | succ n => rfl

/-- C9: from an empty buffer, when the pushed contents fit within the
capacity, the size observer counts exactly what was pushed — the number of
pushes for `ReplayBuffer`, the summed trajectory lengths for
`TrajectoryReplayBuffer`. -/
theorem size_counts_pushes_within_capacity {α β γ ι : Type} (c c' : ℕ)
    (items : List α) (ts : List (Trajectory β γ))
    (hc : 0 < c) (hc' : 0 < c')
    (hitems : items.length ≤ c)
    (hts : (ts.map Trajectory.length).sum ≤ c') :
    (∃ b : ReplayBuffer α,
      ReplayBuffer.pushSeq (ReplayBuffer.init (some c)) items = some b ∧
        b.size = items.length) ∧
    (∃ b : TrajectoryReplayBuffer β γ ι,
      TrajectoryReplayBuffer.pushSeq (TrajectoryReplayBuffer.empty (some c')) ts = some b ∧
        b.size = (ts.map Trajectory.length).sum) := by
  constructor
  · obtain ⟨b, hseq, hbuf, _⟩ := ReplayBuffer.pushSeq_appends items
      (ReplayBuffer.init (some c)) c (ReplayBuffer.init_capacity_pos hc)
      (by simpa [ReplayBuffer.size, ReplayBuffer.init] using hitems)
    exact ⟨b, hseq, by simp [ReplayBuffer.size, hbuf, ReplayBuffer.init]⟩
  · obtain ⟨b, hseq, hlens, _⟩ := TrajectoryReplayBuffer.pushSeq_appendLengths ts
      (TrajectoryReplayBuffer.empty (some c')) c'
      (TrajectoryReplayBuffer.empty_capacity_pos hc')
      (by simpa [TrajectoryReplayBuffer.size, TrajectoryReplayBuffer.empty] using hts)
    exact ⟨b, hseq, by simp [TrajectoryReplayBuffer.size, hlens, TrajectoryReplayBuffer.empty]⟩

/-- Closed witness for C9: capacity 2 on both sides, two pushed items, one
pushed trajectory of length 2. -/
theorem size_counts_pushes_within_capacity_witness :
    (∃ b : ReplayBuffer ℕ,
      ReplayBuffer.pushSeq (ReplayBuffer.init (some 2)) [7, 8] = some b ∧
        b.size = [7, 8].length) ∧
    (∃ b : TrajectoryReplayBuffer ℕ ℕ ℕ,
      TrajectoryReplayBuffer.pushSeq (TrajectoryReplayBuffer.empty (some 2))
          [constTraj 2] = some b ∧
        b.size = ([constTraj 2].map Trajectory.length).sum) :=
  size_counts_pushes_within_capacity 2 2 [7, 8] [constTraj 2]
    (by decide) (by decide) (by decide) (by decide)

/-- Helper: one `ReplayBuffer.push` preserves a finite capacity and the size
bound: the append arm is guarded by `size < capacity`, the overwrite arm
keeps the slot count. -/
theorem ReplayBuffer.push_size_le {α : Type} {b b' : ReplayBuffer α} {x : α} {c : ℕ}
    (hc : b.capacity = some c) (hle : b.size ≤ c) (h : b.push x = some b') :
    b'.capacity = some c ∧ b'.size ≤ c := by
  rw [ReplayBuffer.push] at h
  by_cases hcond : Capacity.ltCap b.size b.capacity = true
  · simp only [hcond, if_true, bind, Option.bind, pure, Option.some.injEq] at h
    subst h
    refine ⟨by simpa using hc, ?_⟩
    rw [hc] at hcond
    simp only [Capacity.ltCap, decide_eq_true_eq] at hcond
    simp only [ReplayBuffer.size, List.length_append, List.length_cons, List.length_nil]
    simp only [ReplayBuffer.size] at hcond
    omega
  · simp only [hcond, if_false, Bool.false_eq_true] at h
    cases hs : setIdx b.buffer b.offset x with
    | none =>
      rw [hs] at h
      simp [bind, Option.bind] at h
    | some buf =>
      rw [hs] at h
      simp only [bind, Option.bind, pure, Option.some.injEq] at h
      obtain ⟨hbuf, _⟩ := setIdx_some hs
      subst h
      refine ⟨by simpa using hc, ?_⟩
      simp only [ReplayBuffer.size, hbuf, List.length_set]
      simpa [ReplayBuffer.size] using hle

/-- Helper: a push sequence preserves the size bound of a finite-capacity
`ReplayBuffer`. -/
theorem ReplayBuffer.pushSeq_size_le {α : Type} (items : List α)
    {b b' : ReplayBuffer α} {c : ℕ}
    (hc : b.capacity = some c) (hle : b.size ≤ c) (h : b.pushSeq items = some b') :
    b'.capacity = some c ∧ b'.size ≤ c := by
  induction items generalizing b with
  | nil =>
    rw [ReplayBuffer.pushSeq] at h
    simp only [Option.some.injEq] at h
    subst h
    exact ⟨hc, hle⟩
  | cons x xs ih =>
    rw [ReplayBuffer.pushSeq] at h
    cases hp : b.push x with
    | none =>
      rw [hp] at h
      simp [bind, Option.bind] at h
    | some b1 =>
      rw [hp] at h
      simp only [bind, Option.bind] at h
      obtain ⟨hc1, hle1⟩ := ReplayBuffer.push_size_le hc hle hp
      exact ih hc1 hle1 h

/-- Helper: a mutation sequence (pushes and extends) preserves the size bound
of a finite-capacity `ReplayBuffer`. -/
theorem ReplayBuffer.runOps_size_le {α : Type} (ops : List (ReplayBufferOp α))
    {b b' : ReplayBuffer α} {c : ℕ}
    (hc : b.capacity = some c) (hle : b.size ≤ c) (h : b.runOps ops = some b') :
    b'.capacity = some c ∧ b'.size ≤ c := by
  induction ops generalizing b with
  | nil =>
    rw [ReplayBuffer.runOps] at h
    simp only [Option.some.injEq] at h
    subst h
    exact ⟨hc, hle⟩
  | cons op rest ih =>
    cases op with
    | pushOp item =>
      rw [ReplayBuffer.runOps] at h
      cases hp : b.push item with
      | none =>
        rw [hp] at h
        simp [bind, Option.bind] at h
      | some b1 =>
        rw [hp] at h
        simp only [bind, Option.bind] at h
        obtain ⟨hc1, hle1⟩ := ReplayBuffer.push_size_le hc hle hp
        exact ih hc1 hle1 h
    | extendOp items =>
      rw [ReplayBuffer.runOps] at h
      cases hp : b.extend items with
      | none =>
        rw [hp] at h
        simp [bind, Option.bind] at h
      | some b1 =>
        rw [hp] at h
        simp only [bind, Option.bind] at h
        rw [ReplayBuffer.extend_eq_pushSeq] at hp
        obtain ⟨hc1, hle1⟩ := ReplayBuffer.pushSeq_size_le items hc hle hp
        exact ih hc1 hle1 h

/-- Helper: on a state whose cursor equals the slot and length count — as
every push-only history maintains — one `TrajectoryReplayBuffer.push` can
only append: its overwrite arm indexes `buffer[offset]` out of range.  The
append arm re-establishes the cursor equalities and its own guard gives
`size ≤ capacity`. -/
theorem TrajectoryReplayBuffer.push_inv {β γ ι : Type}
    {b b' : TrajectoryReplayBuffer β γ ι} {t : Trajectory β γ} {c : ℕ}
    (hc : b.capacity = some c)
    (hoff : b.offset = b.lengths.length)
    (hbuf : b.buffer.length = b.lengths.length)
    (h : b.push t = some b') :
    b'.capacity = some c ∧ b'.size ≤ c ∧ b'.offset = b'.lengths.length ∧
      b'.buffer.length = b'.lengths.length := by
  rw [TrajectoryReplayBuffer.push] at h
  by_cases hcond : Capacity.leCap (b.size + t.length) b.capacity = true
  · simp only [hcond, if_true, Option.some.injEq] at h
    subst h
    refine ⟨by simpa using hc, ?_, ?_, ?_⟩
    · rw [hc] at hcond
      simp only [Capacity.leCap, decide_eq_true_eq] at hcond
      simp only [TrajectoryReplayBuffer.size, List.sum_append, List.sum_cons,
        List.sum_nil] at hcond ⊢
      omega
    · simp [hoff]
    · simp [hbuf]
  · exfalso
    simp only [hcond, if_false, Bool.false_eq_true] at h
    rw [show b.offset = b.buffer.length from hoff.trans hbuf.symm] at h
    simp [setIdx, bind, Option.bind] at h

/-- Helper: a push-only history from the empty trajectory buffer keeps the
summed stored lengths within a finite capacity. -/
theorem TrajectoryReplayBuffer.pushSeq_inv {β γ ι : Type}
    (ts : List (Trajectory β γ)) {b b' : TrajectoryReplayBuffer β γ ι} {c : ℕ}
    (hc : b.capacity = some c) (hle : b.size ≤ c)
    (hoff : b.offset = b.lengths.length)
    (hbuf : b.buffer.length = b.lengths.length)
    (h : b.pushSeq ts = some b') :
    b'.capacity = some c ∧ b'.size ≤ c := by
  induction ts generalizing b with
  | nil =>
    rw [TrajectoryReplayBuffer.pushSeq] at h
    simp only [Option.some.injEq] at h
    subst h
    exact ⟨hc, hle⟩
  | cons t ts ih =>
    rw [TrajectoryReplayBuffer.pushSeq] at h
    cases hp : b.push t with
    | none =>
      rw [hp] at h
      simp [bind, Option.bind] at h
    | some b1 =>
      rw [hp] at h
      simp only [bind, Option.bind] at h
      obtain ⟨hc1, hle1, hoff1, hbuf1⟩ := TrajectoryReplayBuffer.push_inv hc hoff hbuf hp
      exact ih hc1 hle1 hoff1 hbuf1 h

/-- C3 (amended): with finite capacity, `size ≤ capacity` holds in every
state a `ReplayBuffer` reaches from empty through any sequence of `push` and
`extend` calls, and in every state a `TrajectoryReplayBuffer` reaches from
empty through any sequence of `push` calls.  (The bound does not survive the
`extend` method the trajectory variant inherits — that method appends slots
without length entries and wraps the shared cursor, after which an
overwriting push can lift the summed length above the capacity; see the
counterexample.) -/
theorem size_le_capacity_invariant {α β γ ι : Type} (c c' : ℕ)
    (hc : 0 < c) (hc' : 0 < c')
    (ops : List (ReplayBufferOp α)) (ts : List (Trajectory β γ))
    (rb : ReplayBuffer α) (tb : TrajectoryReplayBuffer β γ ι)
    (hrun : ReplayBuffer.runOps (ReplayBuffer.init (some c)) ops = some rb)
    (hts : TrajectoryReplayBuffer.pushSeq (TrajectoryReplayBuffer.empty (some c')) ts
      = some tb) :
    rb.size ≤ c ∧ tb.size ≤ c' := by
  constructor
  · exact (ReplayBuffer.runOps_size_le ops (ReplayBuffer.init_capacity_pos hc)
      (by simp [ReplayBuffer.size, ReplayBuffer.init]) hrun).2
  · exact (TrajectoryReplayBuffer.pushSeq_inv ts
      (TrajectoryReplayBuffer.empty_capacity_pos hc')
      (by simp [TrajectoryReplayBuffer.size, TrajectoryReplayBuffer.empty])
      (by simp [TrajectoryReplayBuffer.empty])
      (by simp [TrajectoryReplayBuffer.empty]) hts).2

/-- Closed witness for the amended C3: capacity 1 on both sides, one pushed
item and one pushed length-1 trajectory. -/
theorem size_le_capacity_invariant_witness :
    ReplayBuffer.size { capacity := some 1, buffer := [5], offset := 0 } ≤ 1 ∧
    TrajectoryReplayBuffer.size (β := ℕ) (γ := ℕ) (ι := ℕ)
      { capacity := some 1, buffer := [Slot.traj (constTraj 1)], lengths := [1],
        offset := 1 } ≤ 1 :=
  size_le_capacity_invariant 1 1 (by decide) (by decide)
    [ReplayBufferOp.pushOp 5] [constTraj 1] _ _ (by decide) (by decide)

/-- Helper: the first push into a freshly constructed buffer always appends
(an empty slot list is below every capacity, `np.inf` included). -/
theorem ReplayBuffer.init_ltCap {α : Type} (capacity : Option ℕ) :
    Capacity.ltCap (ReplayBuffer.init (α := α) capacity).size
      (ReplayBuffer.init (α := α) capacity).capacity = true := by
  cases capacity with
  | none => rfl
  | some c =>
    cases c with
    | zero => rfl
    | succ n =>
      simp [ReplayBuffer.init, ReplayBuffer.size, Capacity.ltCap]

/-- C10: pushing one item into an empty `ReplayBuffer` and sampling a batch
of one — the index stream has length one and stays below the size, so it
necessarily draws slot 0 — returns exactly that item's field values,
unmodified, regrouped field-wise. -/
theorem replay_single_item_roundtrip {β : Type} (capacity : Option ℕ) (it : Item β)
    (b' : ReplayBuffer (Item β)) (idxs : List ℕ)
    (hpush : (ReplayBuffer.init capacity).push it = some b')
    (hlen : idxs.length = 1) (hin : ∀ i ∈ idxs, i < b'.size) :
    b'.sample idxs = some ([it.observation], [it.action], [it.reward],
      [it.nextObservation], [it.done]) := by
  rw [ReplayBuffer.push] at hpush
  rw [if_pos (ReplayBuffer.init_ltCap capacity)] at hpush
  simp only [bind, Option.bind, pure, Option.some.injEq] at hpush
  have hbuf : b'.buffer = [it] := by
    rw [← hpush]
    simp [ReplayBuffer.init]
  have hidx : idxs = [0] := by
    cases idxs with
    | nil => simp at hlen
    | cons i rest =>
      cases rest with
      | nil =>
        have : i < b'.size := hin i (by simp)
        have hsz : b'.size = 1 := by simp [ReplayBuffer.size, hbuf]
        rw [hsz] at this
        simp only [List.cons.injEq, and_true]
        omega
      | cons j rest' => simp at hlen
  rw [hidx]
  simp [ReplayBuffer.sample, idxGetAll, hbuf, bind, Option.bind, pure]

/-- Closed witness for C10: a concrete item pushed into an unbounded empty
buffer and sampled back with the only possible index draw. -/
theorem replay_single_item_roundtrip_witness :
    ReplayBuffer.sample
      { capacity := none, buffer := [(⟨1, 2, 3, 4, 5⟩ : Item ℕ)], offset := 1 } [0] =
      some ([1], [2], [3], [4], [5]) :=
  replay_single_item_roundtrip none ⟨1, 2, 3, 4, 5⟩ _ [0] (by decide) (by decide)
    (by decide)

/-- Helper: a sub-sequence returned by the retry loop comes from a stored
trajectory slot of length at least `stepSize`, is sliced at a start offset
inside `[0, length - stepSize]`, and carries the hidden entry at that
offset. -/
theorem drawOne_sound {β γ ι : Type} {buffer : List (Slot β γ ι)} {stepSize : ℕ}
    {picks : List (ℕ × ℕ)} {d : SubSeq β γ}
    (h : drawOne buffer stepSize picks = some d) :
    ∃ i t off, buffer.get? i = some (Slot.traj t) ∧
      stepSize ≤ t.observation.length ∧
      off ≤ t.observation.length - stepSize ∧
      d.observation = (t.observation.drop off).take stepSize ∧
      d.action = (t.action.drop off).take stepSize ∧
      d.reward = (t.reward.drop off).take stepSize ∧
      d.nextObservation = (t.nextObservation.drop off).take stepSize ∧
      d.done = (t.done.drop off).take stepSize ∧
      t.hidden.get? off = some d.hidden := by
  induction picks with
  | nil => simp [drawOne] at h
  | cons p rest ih =>
    obtain ⟨i, r⟩ := p
    rw [drawOne] at h
    cases hg : buffer.get? i with
    | none =>
      rw [hg] at h
      simp at h
    | some s =>
      rw [hg] at h
      cases s with
      | item x => simp at h
      | traj t =>
        simp only at h
        by_cases hlen : stepSize ≤ t.observation.length
        · rw [if_pos hlen] at h
          cases hh : t.hidden.get? (r % (t.observation.length - stepSize + 1)) with
          | none =>
            rw [hh] at h
            simp at h
          | some hd =>
            rw [hh] at h
            simp only [Option.some.injEq] at h
            refine ⟨i, t, r % (t.observation.length - stepSize + 1), hg, hlen,
              Nat.le_of_lt_succ (Nat.mod_lt _ (Nat.succ_pos _)), ?_⟩
            rw [← h]
            exact ⟨rfl, rfl, rfl, rfl, rfl, hh⟩
        · rw [if_neg hlen] at h
          exact ih h

/-- Helper: when every stored trajectory is shorter than `stepSize`, the
retry loop never meets its exit condition — no finite pick stream produces
a sub-sequence. -/
theorem drawOne_none_of_all_short {β γ ι : Type} {buffer : List (Slot β γ ι)}
    {stepSize : ℕ}
    (hshort : ∀ i t, buffer.get? i = some (Slot.traj t) → t.observation.length < stepSize)
    (picks : List (ℕ × ℕ)) :
    drawOne buffer stepSize picks = none := by
  induction picks with
  | nil => rfl
  | cons p rest ih =>
    obtain ⟨i, r⟩ := p
    rw [drawOne]
    cases hg : buffer.get? i with
    | none => rfl
    | some s =>
      cases s with
      | item x => rfl
      | traj t =>
        simp only
        rw [if_neg (by exact Nat.not_le.mpr (hshort i t hg))]
        exact ih

/-- Helper: a completed batch has one draw per requested element, each
produced by some run of the retry loop. -/
theorem drawAll_sound {β γ ι : Type} {buffer : List (Slot β γ ι)} {stepSize : ℕ}
    {rand : List (List (ℕ × ℕ))} {draws : List (SubSeq β γ)}
    (h : drawAll buffer stepSize rand = some draws) :
    draws.length = rand.length ∧
      ∀ d ∈ draws, ∃ picks, drawOne buffer stepSize picks = some d := by
  induction rand generalizing draws with
  | nil =>
    rw [drawAll] at h
    simp only [Option.some.injEq] at h
    subst h
    exact ⟨rfl, by simp⟩
  | cons picks rest ih =>
    rw [drawAll] at h
    cases hd : drawOne buffer stepSize picks with
    | none =>
      rw [hd] at h
      simp [bind, Option.bind] at h
    | some d0 =>
      rw [hd] at h
      simp only [bind, Option.bind] at h
      cases hds : drawAll buffer stepSize rest with
      | none =>
        rw [hds] at h
        simp at h
      | some ds =>
        rw [hds] at h
        simp only [pure, Option.some.injEq] at h
        subst h
        obtain ⟨hlen, hmem⟩ := ih hds
        refine ⟨by simp [hlen], ?_⟩
        intro d hd'
        rcases List.mem_cons.mp hd' with rfl | hmem'
        · exact ⟨picks, hd⟩
        · exact hmem d hmem'

/-- Helper: collecting entry `t` of equal-length rows keeps one value per
row. -/
theorem length_filterMap_get {β : Type} (t s : ℕ) (rows : List (List β))
    (ht : t < s) (hrows : ∀ r ∈ rows, r.length = s) :
    (rows.filterMap (fun r => r.get? t)).length = rows.length := by
  induction rows with
  | nil => rfl
  | cons r rs ih =>
    rw [List.filterMap_cons]
    have hr : t < r.length := by rw [hrows r (by simp)]; exact ht
    cases hg : r.get? t with
    | none =>
      rw [List.get?_eq_none] at hg
      omega
    | some x =>
      simp only [List.length_cons]
      rw [ih (fun r hr => hrows r (by simp [hr]))]

/-- Helper: the time-major regrouping has one row per step. -/
theorem timeMajor_length {β : Type} (s : ℕ) (rows : List (List β)) :
    (timeMajor s rows).length = s := by
  simp [timeMajor]

/-- Helper: for equal-length input rows, every time-major row has one entry
per input row. -/
theorem timeMajor_col_length {β : Type} {s : ℕ} {rows : List (List β)}
    (hrows : ∀ r ∈ rows, r.length = s) :
    ∀ col ∈ timeMajor s rows, col.length = rows.length := by
  intro col hcol
  rw [timeMajor] at hcol
  simp only [List.mem_map, List.mem_range] at hcol
  obtain ⟨t, ht, rfl⟩ := hcol
  exact length_filterMap_get t s rows ht hrows

/-- C7: when every stored trajectory is shorter than `step_size` and at
least one batch element is requested, the retry loop of `sample` re-draws
unconditionally and never meets its exit condition — no finite amount of
randomness makes the call return (the modelled call yields no result);
conversely, a returned sample requires at least one stored trajectory of
length at least `step_size`. -/
theorem sample_never_returns_when_all_short {β γ ι : Type}
    (b : TrajectoryReplayBuffer β γ ι) (stepSize : ℕ)
    (rand : List (List (ℕ × ℕ))) (hbatch : 1 ≤ rand.length) :
    ((∀ i t, b.buffer.get? i = some (Slot.traj t) → t.observation.length < stepSize) →
      b.sample stepSize rand = none) ∧
    (∀ out, b.sample stepSize rand = some out →
      ∃ i t, b.buffer.get? i = some (Slot.traj t) ∧ stepSize ≤ t.observation.length) := by
  cases rand with
  | nil => simp at hbatch
  | cons picks rest =>
    constructor
    · intro hshort
      rw [TrajectoryReplayBuffer.sample, drawAll,
        drawOne_none_of_all_short hshort picks]
      simp [bind, Option.bind]
    · intro out h
      rw [TrajectoryReplayBuffer.sample] at h
      cases hd : drawAll b.buffer stepSize (picks :: rest) with
      | none =>
        rw [hd] at h
        simp [bind, Option.bind] at h
      | some draws =>
        rw [hd] at h
        obtain ⟨hlen, hmem⟩ := drawAll_sound hd
        cases draws with
        | nil => simp at hlen
        | cons d ds =>
          obtain ⟨picks', hone⟩ := hmem d (by simp)
          obtain ⟨i, t, off, hg, hslen, -⟩ := drawOne_sound hone
          exact ⟨i, t, hg, hslen⟩

/-- C6: whenever `TrajectoryReplayBuffer.sample` returns — on a buffer whose
stored trajectories have aligned per-step arrays, as pushed trajectories do
— every one of the `batch_size` extracted sub-sequences comes from a stored
trajectory of length `L ≥ step_size`, starts at an offset in
`[0, L - step_size]`, has width exactly `step_size` in every field and
contributes only the single hidden entry at its start offset; and the
returned per-field arrays are time-major, of outer length `step_size` with
one entry per batch element in every row. -/
theorem trajectory_sample_sound {β γ ι : Type} (b : TrajectoryReplayBuffer β γ ι)
    (stepSize : ℕ) (rand : List (List (ℕ × ℕ))) (out : SampleBatch β γ)
    (halign : ∀ s ∈ b.buffer, Slot.aligned s)
    (h : b.sample stepSize rand = some out) :
    sampleSound b stepSize rand.length out := by
  rw [TrajectoryReplayBuffer.sample] at h
  cases hd : drawAll b.buffer stepSize rand with
  | none =>
    rw [hd] at h
    simp [bind, Option.bind] at h
  | some draws =>
    rw [hd] at h
    simp only [bind, Option.bind, pure, Option.some.injEq] at h
    obtain ⟨hlen, hmem⟩ := drawAll_sound hd
    have hfull : ∀ d ∈ draws, ∃ i t off,
        b.buffer.get? i = some (Slot.traj t) ∧
        stepSize ≤ t.observation.length ∧
        off ≤ t.observation.length - stepSize ∧
        d.observation = (t.observation.drop off).take stepSize ∧
        d.action = (t.action.drop off).take stepSize ∧
        d.reward = (t.reward.drop off).take stepSize ∧
        d.nextObservation = (t.nextObservation.drop off).take stepSize ∧
        d.done = (t.done.drop off).take stepSize ∧
        t.hidden.get? off = some d.hidden ∧
        d.observation.length = stepSize ∧ d.action.length = stepSize ∧
        d.reward.length = stepSize ∧ d.nextObservation.length = stepSize ∧
        d.done.length = stepSize := by
      intro d hd'
      obtain ⟨picks, hone⟩ := hmem d hd'
      obtain ⟨i, t, off, hg, hslen, hoffle, ho, ha, hr, hn, hdn, hh⟩ := drawOne_sound hone
      have hal : Trajectory.aligned t := halign _ (List.get?_mem hg)
      obtain ⟨ha1, ha2, ha3, ha4, ha5⟩ := hal
      have hobs : off + stepSize ≤ t.observation.length := by omega
      refine ⟨i, t, off, hg, hslen, hoffle, ho, ha, hr, hn, hdn, hh, ?_, ?_, ?_, ?_, ?_⟩
      · rw [ho]; simp only [List.length_take, List.length_drop]; omega
      · rw [ha]; simp only [List.length_take, List.length_drop]; omega
      · rw [hr]; simp only [List.length_take, List.length_drop]; omega
      · rw [hn]; simp only [List.length_take, List.length_drop]; omega
      · rw [hdn]; simp only [List.length_take, List.length_drop]; omega
    have hwObs : ∀ r ∈ draws.map SubSeq.observation, r.length = stepSize := by
      intro r hr
      simp only [List.mem_map] at hr
      obtain ⟨d, hd', rfl⟩ := hr
      obtain ⟨i, t, off, -, -, -, -, -, -, -, -, -, hw, -, -, -, -⟩ := hfull d hd'
      exact hw
    have hwAct : ∀ r ∈ draws.map SubSeq.action, r.length = stepSize := by
      intro r hr
      simp only [List.mem_map] at hr
      obtain ⟨d, hd', rfl⟩ := hr
      obtain ⟨i, t, off, -, -, -, -, -, -, -, -, -, -, hw, -, -, -⟩ := hfull d hd'
      exact hw
    have hwRew : ∀ r ∈ draws.map SubSeq.reward, r.length = stepSize := by
      intro r hr
      simp only [List.mem_map] at hr
      obtain ⟨d, hd', rfl⟩ := hr
      obtain ⟨i, t, off, -, -, -, -, -, -, -, -, -, -, -, hw, -, -⟩ := hfull d hd'
      exact hw
    have hwNxt : ∀ r ∈ draws.map SubSeq.nextObservation, r.length = stepSize := by
      intro r hr
      simp only [List.mem_map] at hr
      obtain ⟨d, hd', rfl⟩ := hr
      obtain ⟨i, t, off, -, -, -, -, -, -, -, -, -, -, -, -, hw, -⟩ := hfull d hd'
      exact hw
    have hwDone : ∀ r ∈ draws.map SubSeq.done, r.length = stepSize := by
      intro r hr
      simp only [List.mem_map] at hr
      obtain ⟨d, hd', rfl⟩ := hr
      obtain ⟨i, t, off, -, -, -, -, -, -, -, -, -, -, -, -, -, hw⟩ := hfull d hd'
      exact hw
    subst h
    refine ⟨draws, hlen, hfull, rfl, rfl, rfl, rfl, rfl, rfl,
      timeMajor_length _ _, ?_, timeMajor_length _ _, ?_,
      timeMajor_length _ _, ?_, timeMajor_length _ _, ?_,
      timeMajor_length _ _, ?_, by simp [hlen]⟩
    · intro col hcol
      have := timeMajor_col_length hwObs col hcol
      rwa [List.length_map, hlen] at this
    · intro col hcol
      have := timeMajor_col_length hwAct col hcol
      rwa [List.length_map, hlen] at this
    · intro col hcol
      have := timeMajor_col_length hwRew col hcol
      rwa [List.length_map, hlen] at this
    · intro col hcol
      have := timeMajor_col_length hwNxt col hcol
      rwa [List.length_map, hlen] at this
    · intro col hcol
      have := timeMajor_col_length hwDone col hcol
      rwa [List.length_map, hlen] at this


/-- Closed witness for C7: a buffer whose only trajectory has length 2,
sampled with `step_size` 3 and batch size 1. -/
theorem sample_never_returns_when_all_short_witness :
    ((∀ i t, witnessBuf.buffer.get? i = some (Slot.traj t) →
        t.observation.length < 3) →
      witnessBuf.sample 3 [[(0, 0)]] = none) ∧
    (∀ out, witnessBuf.sample 3 [[(0, 0)]] = some out →
      ∃ i t, witnessBuf.buffer.get? i = some (Slot.traj t) ∧
        3 ≤ t.observation.length) :=
  sample_never_returns_when_all_short witnessBuf 3 [[(0, 0)]] (by decide)

/-- Closed witness for C6: the same one-slot buffer sampled with
`step_size` 1 and batch size 1, with its concrete return value. -/
theorem trajectory_sample_sound_witness :
    sampleSound witnessBuf 1 1
      { observation := [[0]], action := [[0]], reward := [[0]],
        nextObservation := [[0]], done := [[0]], hidden := [0] } :=
  trajectory_sample_sound witnessBuf 1 [[(0, 0)]]
    { observation := [[0]], action := [[0]], reward := [[0]],
      nextObservation := [[0]], done := [[0]], hidden := [0] }
    (by
      intro s hs
      simp only [witnessBuf, List.mem_singleton] at hs
      subst hs
      exact ⟨rfl, rfl, rfl, rfl, rfl⟩)
    (by rfl)
